import Mathlib

/-!
# Verification of the TS3 ServerQuery protocol client (`ts3.py`)

A shallow embedding of the protocol layer of the `python-ts3` repository:
the escape table and the escape/unescape codec (`_escape_str`,
`_unescape_str`), command construction (`construct_command`), response-line
parsing (`parse_command`), the request/response cycle (`send_command`), and
the session-level `send`/`connect` operations.

Strings are modelled as `List Char` (the script handles ASCII wire data
character by character).  Python's `str.replace`, `str.split(sep)`,
`str.strip()` and `sep.join` are modelled by `pyReplace`, `pySplitChar`,
`pyStrip` and `pyJoin` below, with Python's exact semantics (left-to-right
non-overlapping replacement whose output is not rescanned; `split` keeping
empty fields; `strip` removing the six Python whitespace characters).
Python runtime exceptions (IndexError, KeyError) are modelled with
`Except PyExc`.  Dictionary iteration order (unspecified in Python 2) is
modelled as the source listing order for the escape table and as insertion
order for command keys.
-/

/-- Wire strings, modelled character by character. -/
abbrev Str := List Char

/-- Does `pat` occur as a prefix of `s`?  (Helper for `pyReplace`.) -/
def strStartsWith : Str → Str → Bool
  | [], _ => true
  | _ :: _, [] => false
  | p :: ps, c :: cs => if p = c then strStartsWith ps cs else false

/-- Fuel-driven worker for `pyReplace`; the fuel bounds the number of
characters of the subject still to be scanned, so `fuel = s.length` always
suffices.  Structural recursion on the fuel keeps the definition kernel-
reducible. -/
def pyReplaceFuel : Nat → Str → Str → Str → Str
  | 0, s, _, _ => s
  | _ + 1, s, [], _ => s
  | _ + 1, [], _ :: _, _ => []
  | fuel + 1, c :: cs, p :: ps, rep =>
    if strStartsWith (p :: ps) (c :: cs) then
      rep ++ pyReplaceFuel fuel (cs.drop ps.length) (p :: ps) rep
    else
      c :: pyReplaceFuel fuel cs (p :: ps) rep

/-- Python's `s.replace(pat, rep)`: scan left to right, replace each
non-overlapping occurrence of `pat`, never rescanning the replacement
text. -/
def pyReplace (s pat rep : Str) : Str := pyReplaceFuel s.length s pat rep

/-- Python's `s.split(sep)` for a one-character separator: split on every
occurrence, keeping empty fields; always returns at least one field. -/
def pySplitChar (sep : Char) : Str → List Str
  | [] => [[]]
  | c :: cs =>
    if c = sep then [] :: pySplitChar sep cs
    else
      match pySplitChar sep cs with
      | [] => [[c]]
      | t :: ts => (c :: t) :: ts

/-- The six characters removed by Python's `str.strip()`. -/
def isPyWs (c : Char) : Bool :=
  c = ' ' || c = '\t' || c = '\n' || c = '\r' || c = '\x0b' || c = '\x0c'

/-- Python's `s.strip()`. -/
def pyStrip (s : Str) : Str :=
  ((s.dropWhile isPyWs).reverse.dropWhile isPyWs).reverse

/-- Python's `sep.join(parts)`. -/
def pyJoin (sep : Str) : List Str → Str
  | [] => []
  | [p] => p
  | p :: q :: rest => p ++ sep ++ pyJoin sep (q :: rest)

/-- Concatenated character-wise expansion (helper for reasoning about
single-character replacements). -/
def concatMap (f : Char → Str) : Str → Str
  | [] => []
  | c :: cs => f c ++ concatMap f cs

/-- Single-character replacement in character-wise form; `pyReplace` with a
one-character pattern computes exactly this (`pyReplace_single`). -/
def replaceChar (c : Char) (rep : Str) (s : Str) : Str :=
  concatMap (fun x => if x = c then rep else [x]) s

/-- The escape table `ts3_escape` of the source, as (literal, token) pairs in
source listing order: `/ → \/`, space `→ \s`, `| → \p`, and the control
characters bell, backspace, form feed, newline, carriage return, horizontal
tab, vertical tab. -/
def ts3_escape : List (Char × Str) :=
  [ ('/', ['\\', '/']),
    (' ', ['\\', 's']),
    ('|', ['\\', 'p']),
    ('\x07', ['\\', 'a']),
    ('\x08', ['\\', 'b']),
    ('\x0c', ['\\', 'f']),
    ('\n', ['\\', 'n']),
    ('\r', ['\\', 'r']),
    ('\t', ['\\', 't']),
    ('\x0b', ['\\', 'v']) ]

/-- `TS3Proto._escape_str` on a string value: first replace every backslash
by `\\`, then run one `str.replace(literal, token)` pass per escape-table
entry. -/
def escape_str (value : Str) : Str :=
  ts3_escape.foldl (fun acc ij => pyReplace acc [ij.1] ij.2)
    (pyReplace value ['\\'] ['\\', '\\'])

/-- `TS3Proto._unescape_str` on a string value: first collapse `\\` to a
single backslash, then run one `str.replace(token, literal)` pass per
escape-table entry. -/
def unescape_str (value : Str) : Str :=
  ts3_escape.foldl (fun acc ij => pyReplace acc ij.2 [ij.1])
    (pyReplace value ['\\', '\\'] ['\\'])

/-- Printable ASCII (0x20–0x7E). -/
def printableAscii (c : Char) : Bool := 32 ≤ c.toNat && c.toNat ≤ 126

/-- Association lookup in the escape table (the `ts3_escape[c]` access
pattern, used only for stating the character-wise normal form of
`escape_str`). -/
def assocFind (l : List (Char × Str)) (c : Char) : Option Str :=
  match l with
  | [] => none
  | ij :: rest => if ij.1 = c then some ij.2 else assocFind rest c

/-- The character-wise effect of the escape passes on a backslash-free
character: a table character becomes its token, anything else stays
itself. -/
def escChunk (c : Char) : Str := (assocFind ts3_escape c).getD [c]

/-- Running a list of single-character replacement passes over a string,
in order (the `for i, j in ts3_escape.iteritems()` loop of `_escape_str`
in `replaceChar` normal form). -/
def escPasses (l : List (Char × Str)) (s : Str) : Str :=
  l.foldl (fun acc ij => replaceChar ij.1 ij.2 acc) s

/-- Well-formed chunk for the unescape analysis: a single non-backslash
character, or a two-character escape token (backslash followed by a
non-backslash character).  In a concatenation of such chunks a backslash
occurs only as the first character of a token, so a two-character
backslash-initial replacement pattern can only match a whole chunk. -/
def okChunk (b : Str) : Bool :=
  match b with
  | [a] => a != '\\'
  | [a, y] => a == '\\' && y != '\\'
  | _ => false

/-- The character-wise residue of running the unescape token passes `ps`
over a chunk map `f`: each pass rewrites the chunks equal to its token to
the single literal character. -/
def chunkAfter (ps : List (Char × Str)) (f : Char → Str) : Char → Str :=
  ps.foldl (fun g ij => fun c => if g c = ij.2 then [ij.1] else g c) f

/-- The syntactically significant wire characters other than the forward
slash: token separator (space), record separator (pipe), and the escaped
control characters including the line terminators. -/
def isSeparatorChar (c : Char) : Bool :=
  decide (c = ' ') || decide (c = '|') || decide (c = '\x07') ||
  decide (c = '\x08') || decide (c = '\x0c') || decide (c = '\n') ||
  decide (c = '\r') || decide (c = '\t') || decide (c = '\x0b')

/-- A scalar command-key value: a Python string or integer (the two cases
`_escape_str` accepts). -/
inductive TSScalar
  | s (v : Str)
  | i (n : Int)
deriving DecidableEq, Repr

/-- A command-key value: a scalar, or a list of scalars (the nested
multi-record case of `construct_command`). -/
inductive TSVal
  | scalar (x : TSScalar)
  | list (l : List TSScalar)
deriving DecidableEq, Repr

/-- `TS3Proto._escape_str` including the integer branch: an integer is
rendered in decimal with no escaping. -/
def escapeScalar : TSScalar → Str
  | .i n => (toString n).toList
  | .s v => escape_str v

/-- `TS3Proto.construct_command`: start the token list with the command
name; for each key in order append one token (a list value rendered as
`key=escape(elem)` pieces joined with `|`, a scalar as `key=escape(value)`);
then `-opt` per option; join all tokens with single spaces.  `keys=None` and
`opts=None` behave exactly like the empty containers, so both are modelled
as lists. -/
def construct_command (command : Str) (keys : List (Str × TSVal))
    (opts : List Str) : Str :=
  let cstr : List Str := [command]
  let cstr := keys.foldl (fun acc kv =>
    acc ++ [match kv.2 with
      | .list l =>
          pyJoin ['|']
            (l.foldl (fun nacc nest => nacc ++ [kv.1 ++ '=' :: escapeScalar nest]) [])
      | .scalar x => kv.1 ++ '=' :: escapeScalar x]) cstr
  let cstr := opts.foldl (fun acc o => acc ++ ['-' :: o]) cstr
  pyJoin [' '] cstr

/-- Specification-side rendering of §4.2 of the spec, written from the
spec's words (name first; each sequence-valued key one `|`-joined token of
`key=escape(element)` pieces; each scalar key one `key=escape(value)`
token; then `-opt` per option; all joined with single spaces), for
comparison with `construct_command`. -/
def constructCommandSpec (name : Str) (keys : List (Str × TSVal))
    (opts : List Str) : Str :=
  pyJoin [' ']
    ([name] ++
      keys.map (fun kv =>
        match kv.2 with
        | .list l => pyJoin ['|'] (l.map (fun e => kv.1 ++ '=' :: escapeScalar e))
        | .scalar x => kv.1 ++ '=' :: escapeScalar x) ++
      opts.map (fun o => '-' :: o))

/-- The Python runtime exceptions and non-returning behaviours the protocol
code can exhibit.  `socketError` is an exception thrown by the socket
library during `connect` (re-raised unchanged by the bare `raise`);
`connectionError` is the repository's (never actually raised)
`ConnectionError(ip, port)`; `blockedRead` models `readline` blocking
forever on an exhausted input stream. -/
inductive PyExc
  | indexError
  | keyError
  | socketError (msg : Str)
  | connectionError (ip : Str) (port : Nat)
  | blockedRead
deriving DecidableEq, Repr

deriving instance DecidableEq for Except

/-- Is the exception the repository's `ConnectionError`? -/
def isConnectionError : PyExc → Bool
  | .connectionError _ _ => true
  | _ => false

/-- A parsed key value: a plain (unescaped) string, or the list of piece
values collected from a `|`-joined token. -/
inductive PVal
  | str (v : Str)
  | vlist (l : List Str)
deriving DecidableEq, Repr

/-- Python dict assignment `m[k] = v` on an association list: overwrite an
existing binding, otherwise append. -/
def dictSet (m : List (Str × PVal)) (k : Str) (v : PVal) : List (Str × PVal) :=
  if m.any (fun p => decide (p.1 = k)) then
    m.map (fun p => if p.1 = k then (k, v) else p)
  else m ++ [(k, v)]

/-- Python dict lookup `m[k]` (as an `Option`; `none` means KeyError). -/
def dictGet (m : List (Str × PVal)) (k : Str) : Option PVal :=
  (m.find? (fun p => decide (p.1 = k))).map (fun p => p.2)

/-- The result of `parse_command`: the optional command token, the keys
dict, and the option flags. -/
structure ParsedLine where
  command : Option Str
  keys : List (Str × PVal)
  opts : List Str
deriving DecidableEq, Repr

/-- The nested-key loop of `parse_command` (lines 140–143 of the source):
`okey` takes each piece's field before the first `=`, `output` collects each
piece's `nvalue[1]` (the field between the first and second `=`); a piece
with no `=` raises IndexError at `nvalue[1]`.  The caller always passes at
least two pieces, so the initial `okey` (unbound in Python) is never the
result. -/
def nestedLoop : List Str → Str → List Str → Except PyExc (Str × List Str)
  | [], okey, output => .ok (okey, output)
  | nkey :: rest, _, output =>
    match pySplitChar '=' nkey with
    | k :: v :: _ => nestedLoop rest k (output ++ [v])
    | _ => .error .indexError

/-- The token-scanning loop of `parse_command` (lines 135–153 of the
source), carrying the keys dict and opts list.  A token containing `|` goes
through the nested-key loop and stores the collected values under the last
piece's key; else a token containing `=` stores `nvalue[0] ->
unescape(nvalue[1])`; else a token starting with `-` appends an opt; an
empty token raises IndexError at `key[0]`; any other token is a no-op. -/
def parseTokens : List Str → List (Str × PVal) → List Str →
    Except PyExc (List (Str × PVal) × List Str)
  | [], ks, os => .ok (ks, os)
  | key :: rest, ks, os =>
    if (pySplitChar '|' key).length > 1 then
      match nestedLoop (pySplitChar '|' key) [] [] with
      | .error e => .error e
      | .ok (okey, output) => parseTokens rest (dictSet ks okey (.vlist output)) os
    else if (pySplitChar '=' key).length > 1 then
      match pySplitChar '=' key with
      | k :: v :: _ => parseTokens rest (dictSet ks k (.str (unescape_str v))) os
      | _ => .error .indexError
    else
      match key with
      | [] => .error .indexError
      | c :: tail => if c = '-' then parseTokens rest ks (os ++ [tail]) else parseTokens rest ks os

/-- `TS3Proto.parse_command`: strip the line, split on single spaces; if the
first token contains `=` there is no command token and scanning starts at
index 0, otherwise the first token is the command and scanning starts at 1;
scan the remaining tokens; the `command` field is present only when the
command string is non-empty. -/
def parse_command (commandstr : Str) : Except PyExc ParsedLine :=
  let cmdlist := pySplitChar ' ' (pyStrip commandstr)
  let command := cmdlist.headD []
  let startIdx := if (pySplitChar '=' command).length > 1 then 0 else 1
  let command := if startIdx = 0 then [] else command
  match parseTokens (cmdlist.drop startIdx) [] [] with
  | .error e => .error e
  | .ok (ks, os) => .ok ⟨if command = [] then none else some command, ks, os⟩

/-- The value `send_command` resolves a request cycle to: the accumulated
data-line key dicts, the status line's `id` value, or Python's implicit
`None` (when the terminal command is not `error`). -/
inductive SCResult
  | payload (l : List (List (Str × PVal)))
  | status (v : PVal)
  | noneResult
deriving DecidableEq, Repr

/-- The read loop of `TS3Proto.send_command` (lines 63–77 of the source)
over the sequence of incoming wire lines: parse each line; a line with no
command appends its keys dict to `ret`; the first line with a command stops
the loop.  If that command is `error`: return `ret` when `ret` is non-empty
and the status `id` equals the string `0`, otherwise return the `id` value;
a missing `id` key raises KeyError; a terminal command other than `error`
returns `None`. -/
def recvLoop : List Str → List (List (Str × PVal)) → Except PyExc SCResult
  | [], _ => .error .blockedRead
  | line :: restLines, acc =>
    match parse_command line with
    | .error e => .error e
    | .ok pl =>
      match pl.command with
      | none => recvLoop restLines (acc ++ [pl.keys])
      | some c =>
        if c = "error".toList then
          match dictGet pl.keys "id".toList with
          | none => .error .keyError
          | some v =>
            if acc ≠ [] ∧ v = .str ['0'] then .ok (.payload acc) else .ok (.status v)
        else .ok .noneResult

/-- `TS3Proto.send_command`'s request/response resolution, as a function of
the incoming wire lines (the outgoing half is `send` of the constructed
line plus a newline and does not affect the returned value). -/
def send_command (lines : List Str) : Except PyExc SCResult :=
  recvLoop lines []

/-- The session state of `TS3Proto`: the connected flag, the two (dead)
traffic counters, and the transcript of raw writes to the socket file
(modelling `self._sockfile.write`). -/
structure Session where
  connected : Bool
  bytesin : Nat
  bytesout : Nat
  outbuf : List Str
deriving DecidableEq, Repr

/-- `TS3Proto.send`: write the payload to the socket file only when the
connected flag is set; otherwise do nothing. -/
def send (st : Session) (payload : Str) : Session :=
  if st.connected then { st with outbuf := st.outbuf ++ [payload] } else st

set_option linter.unusedVariables false in
/-- `TS3Proto.connect`, with the TCP connection attempt abstracted by
`tcpOk` and the underlying socket exception's own payload by `sockErrMsg`:
on failure the bare `raise` re-raises the socket exception (the
`raise ConnectionError(ip, port)` on line 41 is commented out, so `ip` and
`port` are unused on that path) and the session is unchanged; on success
one banner line is read, and only a stripped banner equal to `TS3` sets the
connected flag and returns `True` (otherwise the function falls through and
returns `None`). -/
def connect (st : Session) (ip : Str) (port : Nat) (tcpOk : Bool)
    (sockErrMsg : Str) (banner : Str) : Session × Except PyExc (Option Bool) :=
  if tcpOk then
    if pyStrip banner = "TS3".toList then
      ({ st with connected := true }, .ok (some true))
    else (st, .ok none)
  else (st, .error (.socketError sockErrMsg))

/-! ## Lemmas about the Python string primitives -/

-- Sanity checks of the model against the Python behaviour.
example : escape_str "a b".toList = "a\\sb".toList := by decide
example : escape_str "a/|".toList = "a\\/\\p".toList := by decide
example : unescape_str "a\\sb".toList = "a b".toList := by decide
example : unescape_str (escape_str ['\\']) = ['\\'] := by decide
example : parse_command "error id=0 msg=ok\n".toList =
    .ok ⟨some "error".toList,
         [("id".toList, .str "0".toList), ("msg".toList, .str "ok".toList)], []⟩ := by
  decide
example : parse_command "a=1".toList =
    .ok ⟨none, [("a".toList, .str "1".toList)], []⟩ := by decide
example : send_command ["a=1".toList, "error id=0".toList] =
    .ok (.payload [[("a".toList, .str "1".toList)]]) := by decide
example : send_command ["error id=1 msg=bad".toList] =
    .ok (.status (.str "1".toList)) := by decide

/-- `pyReplaceFuel` with a one-character pattern computes the
character-wise substitution, for any sufficient fuel. -/
lemma pyReplaceFuel_single (c : Char) (rep : Str) :
    ∀ (s : Str) (fuel : Nat), s.length ≤ fuel →
      pyReplaceFuel fuel s [c] rep = replaceChar c rep s := by
  intro s
  induction s with
  | nil =>
      intro fuel _
      cases fuel <;> simp [pyReplaceFuel, replaceChar, concatMap]
  | cons a as ih =>
      intro fuel hlen
      cases fuel with
      | zero => simp at hlen
      | succ g =>
        have hlen' : as.length ≤ g := by
          simp only [List.length_cons] at hlen; omega
        by_cases hca : c = a
        · subst hca
          have hsw : strStartsWith [c] (c :: as) = true := by
            simp [strStartsWith]
          simp only [pyReplaceFuel, hsw, if_true, List.length_nil,
            List.drop_zero]
          rw [ih g hlen']
          simp [replaceChar, concatMap]
        · have hsw : strStartsWith [c] (a :: as) = false := by
            simp [strStartsWith, hca]
          simp only [pyReplaceFuel, hsw, Bool.false_eq_true, if_false]
          rw [ih g hlen']
          simp [replaceChar, concatMap, Ne.symm hca]

/-- `pyReplace` with a one-character pattern is the character-wise
substitution. -/
lemma pyReplace_single (s : Str) (c : Char) (rep : Str) :
    pyReplace s [c] rep = replaceChar c rep s :=
  pyReplaceFuel_single c rep s s.length (Nat.le_refl _)

lemma concatMap_append (f : Char → Str) (a b : Str) :
    concatMap f (a ++ b) = concatMap f a ++ concatMap f b := by
  induction a with
  | nil => simp [concatMap]
  | cons c cs ih => simp [concatMap, ih]

lemma concatMap_id (s : Str) : concatMap (fun c => [c]) s = s := by
  induction s with
  | nil => rfl
  | cons c cs ih => simp [concatMap, ih]

lemma concatMap_congr {f g : Char → Str} :
    ∀ {s : Str}, (∀ c ∈ s, f c = g c) → concatMap f s = concatMap g s := by
  intro s
  induction s with
  | nil => intro _; rfl
  | cons c cs ih =>
      intro h
      simp only [concatMap, h c (List.mem_cons_self c cs)]
      rw [ih (fun d hd => h d (List.mem_cons_of_mem c hd))]

lemma replaceChar_append (c : Char) (rep : Str) (a b : Str) :
    replaceChar c rep (a ++ b) = replaceChar c rep a ++ replaceChar c rep b :=
  concatMap_append _ a b

lemma replaceChar_not_mem {c : Char} {s : Str} (h : c ∉ s) (rep : Str) :
    replaceChar c rep s = s := by
  unfold replaceChar
  rw [concatMap_congr (g := fun c => [c]) ?_, concatMap_id]
  intro d hd
  have : d ≠ c := fun hdc => h (hdc ▸ hd)
  simp [this]

/-- The escape-table fold of `_escape_str` in `replaceChar` form. -/
lemma foldl_pyReplace_eq_escPasses :
    ∀ (l : List (Char × Str)) (a : Str),
      l.foldl (fun acc ij => pyReplace acc [ij.1] ij.2) a = escPasses l a := by
  intro l
  induction l with
  | nil => intro a; rfl
  | cons ij rest ih =>
      intro a
      simp only [List.foldl_cons, escPasses] at *
      rw [pyReplace_single, ih]

/-- `_escape_str` as the escape passes applied to the backslash
pre-substitution. -/
lemma escape_str_eq (s : Str) :
    escape_str s = escPasses ts3_escape (replaceChar '\\' ['\\', '\\'] s) := by
  unfold escape_str
  rw [foldl_pyReplace_eq_escPasses, pyReplace_single]

lemma escPasses_append (l : List (Char × Str)) :
    ∀ (a b : Str), escPasses l (a ++ b) = escPasses l a ++ escPasses l b := by
  induction l with
  | nil => intro a b; rfl
  | cons ij rest ih =>
      intro a b
      simp only [escPasses, List.foldl_cons] at *
      rw [replaceChar_append, ih]

/-- The escape passes applied to a character-wise expansion act chunk by
chunk. -/
lemma escPasses_concatMap (l : List (Char × Str)) (f : Char → Str) :
    ∀ (s : Str),
      escPasses l (concatMap f s) = concatMap (fun c => escPasses l (f c)) s := by
  intro s
  induction s with
  | nil =>
      show escPasses l [] = []
      induction l with
      | nil => rfl
      | cons ij rest ih => simpa [escPasses, replaceChar, concatMap] using ih
  | cons c cs ih =>
      simp only [concatMap]
      rw [escPasses_append, ih]

lemma escPasses_single_of_ne {c : Char} :
    ∀ {l : List (Char × Str)}, (∀ ij ∈ l, c ≠ ij.1) →
      escPasses l [c] = [c] := by
  intro l
  induction l with
  | nil => intro _; rfl
  | cons ij rest ih =>
      intro h
      have h1 : c ≠ ij.1 := h ij (List.mem_cons_self ij rest)
      simp only [escPasses, List.foldl_cons]
      have : replaceChar ij.1 ij.2 [c] = [c] := by
        simp [replaceChar, concatMap, h1]
      rw [this]
      exact ih (fun p hp => h p (List.mem_cons_of_mem ij hp))

lemma assocFind_eq_none {c : Char} :
    ∀ {l : List (Char × Str)}, (∀ ij ∈ l, c ≠ ij.1) → assocFind l c = none := by
  intro l
  induction l with
  | nil => intro _; rfl
  | cons ij rest ih =>
      intro h
      have h1 : c ≠ ij.1 := h ij (List.mem_cons_self ij rest)
      simp only [assocFind, if_neg (Ne.symm h1)]
      exact ih (fun p hp => h p (List.mem_cons_of_mem ij hp))

lemma escChunk_of_ne {c : Char} (h : ∀ ij ∈ ts3_escape, c ≠ ij.1) :
    escChunk c = [c] := by
  simp [escChunk, assocFind_eq_none h]

/-- Inversion for `okChunk`. -/
lemma okChunk_iff {b : Str} :
    okChunk b = true ↔
      (∃ a, b = [a] ∧ a ≠ '\\') ∨ (∃ y, b = ['\\', y] ∧ y ≠ '\\') := by
  match b with
  | [] => simp [okChunk]
  | [a] => simp [okChunk]
  | [a, y] =>
      simp only [okChunk, Bool.and_eq_true, beq_iff_eq, bne_iff_ne]
      constructor
      · rintro ⟨rfl, hy⟩
        exact Or.inr ⟨y, rfl, hy⟩
      · rintro (⟨_, h, _⟩ | ⟨y', h, hy⟩)
        · exact absurd h (by simp)
        · injection h with h1 h2
          injection h2 with h2 _
          exact ⟨h1, h2 ▸ hy⟩
  | a :: y :: z :: rest => simp [okChunk]

/-- A two-character, backslash-initial replacement pattern acting on a
concatenation of well-formed chunks rewrites exactly the chunks equal to
the pattern, chunk by chunk (fuel version). -/
lemma pyReplaceFuel_chunks (x r : Char) :
    ∀ (s : Str) (f : Char → Str) (fuel : Nat),
      (concatMap f s).length ≤ fuel →
      (∀ c ∈ s, okChunk (f c) = true) →
      pyReplaceFuel fuel (concatMap f s) ['\\', x] [r] =
        concatMap (fun c => if f c = ['\\', x] then [r] else f c) s := by
  intro s
  induction s with
  | nil =>
      intro f fuel _ _
      cases fuel <;> simp [pyReplaceFuel, concatMap]
  | cons c cs ih =>
      intro f fuel hlen hok
      have hokc := (okChunk_iff).1 (hok c (List.mem_cons_self c cs))
      have hoktail : ∀ d ∈ cs, okChunk (f d) = true :=
        fun d hd => hok d (List.mem_cons_of_mem c hd)
      rcases hokc with ⟨a, hba, hane⟩ | ⟨y, hby, hyne⟩
      · -- chunk is a single non-backslash character
        have hne2 : f c ≠ ['\\', x] := by
          rw [hba]; intro h; exact absurd (congrArg List.length h) (by simp)
        have hlen2 : (concatMap f cs).length + 1 ≤ fuel := by
          simpa [concatMap, hba] using hlen
        simp only [concatMap, hba, if_neg hne2, List.singleton_append]
        cases fuel with
        | zero => omega
        | succ g =>
          have hsw : strStartsWith ['\\', x] (a :: concatMap f cs) = false := by
            show (if ('\\' : Char) = a then strStartsWith [x] (concatMap f cs)
                  else false) = false
            rw [if_neg (fun h : ('\\' : Char) = a => hane h.symm)]
          simp only [pyReplaceFuel, hsw, Bool.false_eq_true, if_false]
          rw [ih f g (by omega) hoktail]
          rw [if_neg (hba ▸ hne2), List.singleton_append]
      · -- chunk is a two-character token
        have hlen2 : (concatMap f cs).length + 2 ≤ fuel := by
          simpa [concatMap, hby] using hlen
        by_cases hyx : y = x
        · subst hyx
          simp only [concatMap, hby, if_pos, List.cons_append, List.nil_append,
            List.singleton_append]
          cases fuel with
          | zero => omega
          | succ g =>
            have hsw : strStartsWith ['\\', y]
                ('\\' :: y :: concatMap f cs) = true := by
              simp [strStartsWith]
            simp only [pyReplaceFuel, hsw, if_true, List.length_cons,
              List.length_nil, Nat.zero_add, List.drop_succ_cons,
              List.drop_zero]
            rw [ih f g (by omega) hoktail]
            rw [List.singleton_append]
        · have hne2 : f c ≠ ['\\', x] := by
            rw [hby]; intro h
            injection h with _ h2
            injection h2 with h2 _
            exact hyx h2
          simp only [concatMap, hby, if_neg hne2, List.cons_append,
            List.nil_append, List.singleton_append]
          cases fuel with
          | zero => omega
          | succ g =>
            have hsw : strStartsWith ['\\', x]
                ('\\' :: y :: concatMap f cs) = false := by
              show (if ('\\' : Char) = '\\' then
                    strStartsWith [x] (y :: concatMap f cs) else false) = false
              rw [if_pos rfl]
              show (if x = y then strStartsWith [] (concatMap f cs)
                    else false) = false
              rw [if_neg (fun h : x = y => hyx h.symm)]
            simp only [pyReplaceFuel, hsw, Bool.false_eq_true, if_false]
            cases g with
            | zero => omega
            | succ g2 =>
              have hsw2 : strStartsWith ['\\', x]
                  (y :: concatMap f cs) = false := by
                show (if ('\\' : Char) = y then strStartsWith [x] (concatMap f cs)
                      else false) = false
                rw [if_neg (fun h : ('\\' : Char) = y => hyne h.symm)]
              simp only [pyReplaceFuel, hsw2, Bool.false_eq_true, if_false]
              rw [ih f g2 (by omega) hoktail]
              rw [if_neg (hby ▸ hne2)]
              rfl

/-- `pyReplace` version of `pyReplaceFuel_chunks`. -/
lemma pyReplace_chunks (x r : Char) (s : Str) (f : Char → Str)
    (hok : ∀ c ∈ s, okChunk (f c) = true) :
    pyReplace (concatMap f s) ['\\', x] [r] =
      concatMap (fun c => if f c = ['\\', x] then [r] else f c) s :=
  pyReplaceFuel_chunks x r s f (concatMap f s).length (Nat.le_refl _) hok

/-- The backslash-collapse pass of `_unescape_str` leaves a concatenation
of well-formed chunks unchanged: no chunk is a double backslash, and the
pattern cannot span a chunk boundary. -/
lemma pyReplace_bsbs_chunks (f : Char → Str) (s : Str)
    (hok : ∀ c ∈ s, okChunk (f c) = true)
    (hne : ∀ c ∈ s, f c ≠ ['\\', '\\']) :
    pyReplace (concatMap f s) ['\\', '\\'] ['\\'] = concatMap f s := by
  rw [pyReplace_chunks '\\' '\\' s f hok]
  exact concatMap_congr (fun c hc => by rw [if_neg (hne c hc)])

/-- Every entry of the escape table is a two-character backslash token for
a non-backslash literal. -/
lemma ts3_escape_tokens :
    ∀ ij ∈ ts3_escape, (∃ m, ij.2 = ['\\', m]) ∧ ij.1 ≠ '\\' := by
  intro ij hij
  fin_cases hij <;> exact ⟨⟨_, rfl⟩, by decide⟩

/-- Running the token-to-literal passes of `_unescape_str` over a
concatenation of well-formed chunks rewrites chunk by chunk. -/
lemma unescPasses_chunks (s : Str) :
    ∀ (ps : List (Char × Str)) (f : Char → Str),
      (∀ ij ∈ ps, (∃ m, ij.2 = ['\\', m]) ∧ ij.1 ≠ '\\') →
      (∀ c ∈ s, okChunk (f c) = true) →
      ps.foldl (fun acc ij => pyReplace acc ij.2 [ij.1]) (concatMap f s) =
        concatMap (chunkAfter ps f) s := by
  intro ps
  induction ps with
  | nil => intro f _ _; rfl
  | cons ij ps ih =>
      intro f hps hok
      obtain ⟨⟨m, hm⟩, hne⟩ := hps ij (List.mem_cons_self ij ps)
      simp only [List.foldl_cons]
      have step : pyReplace (concatMap f s) ij.2 [ij.1] =
          concatMap (fun c => if f c = ij.2 then [ij.1] else f c) s := by
        rw [hm]
        exact pyReplace_chunks m ij.1 s f hok
      rw [step]
      have hok2 : ∀ c ∈ s,
          okChunk (if f c = ij.2 then [ij.1] else f c) = true := by
        intro c hc
        by_cases hfc : f c = ij.2
        · rw [if_pos hfc]
          show (ij.1 != '\\') = true
          exact bne_iff_ne.2 hne
        · rw [if_neg hfc]; exact hok c hc
      exact ih (fun c => if f c = ij.2 then [ij.1] else f c)
        (fun p hp => hps p (List.mem_cons_of_mem ij hp)) hok2

/-- The unescape passes cannot touch a chunk that is a single character:
every pattern has length two. -/
lemma chunkAfter_singleton :
    ∀ (ps : List (Char × Str)), (∀ ij ∈ ps, ∃ m, ij.2 = ['\\', m]) →
      ∀ (g : Char → Str) (c a : Char), g c = [a] → chunkAfter ps g c = [a] := by
  intro ps
  induction ps with
  | nil => intro _ g c a h; exact h
  | cons ij ps ih =>
      intro hps g c a h
      obtain ⟨m, hm⟩ := hps ij (List.mem_cons_self ij ps)
      show chunkAfter ps (fun c => if g c = ij.2 then [ij.1] else g c) c = [a]
      refine ih (fun p hp => hps p (List.mem_cons_of_mem ij hp)) _ c a ?_
      have hne2 : ([a] : Str) ≠ ij.2 := by
        rw [hm]; intro hcontra
        exact absurd (congrArg List.length hcontra) (by simp)
      show (if g c = ij.2 then [ij.1] else g c) = [a]
      rw [h, if_neg hne2]

/-- The per-character facts about `escChunk` on a non-backslash character:
it is a well-formed chunk, it is not the double-backslash pattern, it is
what the escape passes produce from that character, and the unescape
passes reduce it back to the character. -/
lemma escChunk_props (c : Char) (hc : c ≠ '\\') :
    okChunk (escChunk c) = true ∧ escChunk c ≠ ['\\', '\\'] ∧
    escPasses ts3_escape [c] = escChunk c ∧
    chunkAfter ts3_escape escChunk c = [c] := by
  by_cases h1 : c = '/'
  · subst h1; exact ⟨by decide, by decide, by decide, by decide⟩
  by_cases h2 : c = ' '
  · subst h2; exact ⟨by decide, by decide, by decide, by decide⟩
  by_cases h3 : c = '|'
  · subst h3; exact ⟨by decide, by decide, by decide, by decide⟩
  by_cases h4 : c = '\x07'
  · subst h4; exact ⟨by decide, by decide, by decide, by decide⟩
  by_cases h5 : c = '\x08'
  · subst h5; exact ⟨by decide, by decide, by decide, by decide⟩
  by_cases h6 : c = '\x0c'
  · subst h6; exact ⟨by decide, by decide, by decide, by decide⟩
  by_cases h7 : c = '\n'
  · subst h7; exact ⟨by decide, by decide, by decide, by decide⟩
  by_cases h8 : c = '\r'
  · subst h8; exact ⟨by decide, by decide, by decide, by decide⟩
  by_cases h9 : c = '\t'
  · subst h9; exact ⟨by decide, by decide, by decide, by decide⟩
  by_cases h10 : c = '\x0b'
  · subst h10; exact ⟨by decide, by decide, by decide, by decide⟩
  have hne : ∀ ij ∈ ts3_escape, c ≠ ij.1 := by
    intro ij hij
    fin_cases hij <;> assumption
  have hchunk : escChunk c = [c] := escChunk_of_ne hne
  refine ⟨?_, ?_, ?_, ?_⟩
  · rw [hchunk]
    show (c != '\\') = true
    exact bne_iff_ne.2 hc
  · rw [hchunk]
    intro h
    exact absurd (congrArg List.length h) (by simp)
  · rw [hchunk]
    exact escPasses_single_of_ne hne
  · exact chunkAfter_singleton ts3_escape
      (fun ij hij => (ts3_escape_tokens ij hij).1) escChunk c c hchunk

/-- For backslash-free input, `_escape_str` is the character-wise
expansion by `escChunk`. -/
lemma escape_good {s : Str} (h : '\\' ∉ s) :
    escape_str s = concatMap escChunk s := by
  rw [escape_str_eq, replaceChar_not_mem h]
  induction s with
  | nil =>
      show escPasses ts3_escape [] = []
      decide
  | cons c cs ih =>
      have hc : c ≠ '\\' := fun hcc => h (hcc ▸ List.mem_cons_self c cs)
      have hcs : '\\' ∉ cs := fun hmem => h (List.mem_cons_of_mem c hmem)
      have : (c :: cs : Str) = [c] ++ cs := rfl
      rw [this, escPasses_append, ih hcs, (escChunk_props c hc).2.2.1]
      rfl

/-- Round-trip for any backslash-free string: the unescape passes undo the
escape passes chunk by chunk. -/
lemma unescape_escape_of_no_backslash {s : Str} (h : '\\' ∉ s) :
    unescape_str (escape_str s) = s := by
  have hbs : ∀ c ∈ s, c ≠ '\\' := fun c hc hcc => h (hcc ▸ hc)
  have hok : ∀ c ∈ s, okChunk (escChunk c) = true :=
    fun c hc => (escChunk_props c (hbs c hc)).1
  have hnb : ∀ c ∈ s, escChunk c ≠ ['\\', '\\'] :=
    fun c hc => (escChunk_props c (hbs c hc)).2.1
  rw [escape_good h]
  unfold unescape_str
  rw [pyReplace_bsbs_chunks escChunk s hok hnb]
  rw [unescPasses_chunks s ts3_escape escChunk ts3_escape_tokens hok]
  rw [concatMap_congr (g := fun c => [c])
    (fun c hc => (escChunk_props c (hbs c hc)).2.2.2)]
  exact concatMap_id s

lemma concatMap_all {p : Char → Bool} {g : Char → Str} :
    ∀ {s : Str}, (∀ c ∈ s, (g c).all p = true) →
      (concatMap g s).all p = true := by
  intro s
  induction s with
  | nil => intro _; rfl
  | cons c cs ih =>
      intro h
      simp only [concatMap, List.all_append, Bool.and_eq_true]
      exact ⟨h c (List.mem_cons_self c cs),
        ih (fun d hd => h d (List.mem_cons_of_mem c hd))⟩

/-! ## Claim theorems: the escape codec (C1, C10) -/

/-- C1, counterexample.  The two-character printable-ASCII string
backslash-`n` does not round-trip: `_escape_str` turns it into
backslash-backslash-`n`, and `_unescape_str` first collapses the double
backslash and then replaces the resulting backslash-`n` with a newline —
because the substitution order of `_unescape_str` is not the mirror of
`_escape_str`'s (the claim asserts tokens are replaced back before `\\`
is collapsed; the code collapses `\\` first). -/
theorem unescape_escape_backslash_n :
    (['\\', 'n'].all printableAscii = true) ∧
    escape_str ['\\', 'n'] = ['\\', '\\', 'n'] ∧
    unescape_str (escape_str ['\\', 'n']) = ['\n'] ∧
    unescape_str (escape_str ['\\', 'n']) ≠ ['\\', 'n'] := by
  refine ⟨by decide, by decide, by decide, by decide⟩

/-- C1, amended.  For every string of printable ASCII characters that
contains no backslash, unescaping the escaped form returns the original
string. -/
theorem unescape_escape_roundtrip (s : Str)
    (h : s.all (fun c => printableAscii c && c != '\\') = true) :
    unescape_str (escape_str s) = s := by
  have hnb : '\\' ∉ s := by
    intro hmem
    have := List.all_eq_true.1 h '\\' hmem
    simp at this
  exact unescape_escape_of_no_backslash hnb

/-- C1, witness for the amended theorem at the concrete printable
backslash-free input `a/ b|c`. -/
theorem unescape_escape_roundtrip_witness :
    unescape_str (escape_str "a/ b|c".toList) = "a/ b|c".toList :=
  unescape_escape_roundtrip "a/ b|c".toList (by decide)

/-- C10, counterexample.  `_escape_str` applied to the one-character string
`/` yields the token backslash-slash, which contains the forward slash —
one of the characters the claim says can never appear in escaped output. -/
theorem escape_str_emits_slash :
    escape_str ['/'] = ['\\', '/'] ∧ ('/' ∈ escape_str ['/']) := by
  refine ⟨by decide, by decide⟩

/-- C10, amended.  For every string input, the output of `_escape_str`
contains no space, pipe, bell, backspace, form feed, newline, carriage
return, horizontal tab or vertical tab — so an escaped value can never
introduce a token separator, record separator or line terminator — though
it can contain a forward slash (inside the token backslash-slash). -/
theorem escape_str_no_separators (s : Str) :
    (escape_str s).all (fun c => !(isSeparatorChar c)) = true := by
  rw [escape_str_eq]
  show (escPasses ts3_escape
    (concatMap (fun x => if x = '\\' then ['\\', '\\'] else [x]) s)).all
      (fun c => !(isSeparatorChar c)) = true
  rw [escPasses_concatMap]
  refine concatMap_all ?_
  intro c _
  by_cases h0 : c = '\\'
  · subst h0; decide
  rw [if_neg h0]
  by_cases h1 : c = '/'
  · subst h1; decide
  by_cases h2 : c = ' '
  · subst h2; decide
  by_cases h3 : c = '|'
  · subst h3; decide
  by_cases h4 : c = '\x07'
  · subst h4; decide
  by_cases h5 : c = '\x08'
  · subst h5; decide
  by_cases h6 : c = '\x0c'
  · subst h6; decide
  by_cases h7 : c = '\n'
  · subst h7; decide
  by_cases h8 : c = '\r'
  · subst h8; decide
  by_cases h9 : c = '\t'
  · subst h9; decide
  by_cases h10 : c = '\x0b'
  · subst h10; decide
  have hne : ∀ ij ∈ ts3_escape, c ≠ ij.1 := by
    intro ij hij
    fin_cases hij <;> assumption
  rw [escPasses_single_of_ne hne]
  simp [isSeparatorChar, h2, h3, h4, h5, h6, h7, h8, h9, h10]

/-! ## Lemmas about splitting and the token-scanning loop -/

lemma pySplitChar_ne_nil (c : Char) : ∀ (s : Str), pySplitChar c s ≠ [] := by
  intro s
  match s with
  | [] => simp [pySplitChar]
  | a :: as =>
      simp only [pySplitChar]
      by_cases h : a = c
      · simp [h]
      · rw [if_neg h]
        cases hsplit : pySplitChar c as <;> simp

lemma pySplitChar_not_mem {c : Char} :
    ∀ {s : Str}, c ∉ s → pySplitChar c s = [s] := by
  intro s
  induction s with
  | nil => intro _; rfl
  | cons a as ih =>
      intro h
      have ha : a ≠ c := fun hac => h (hac ▸ List.mem_cons_self a as)
      have has : c ∉ as := fun hmem => h (List.mem_cons_of_mem a hmem)
      simp only [pySplitChar, if_neg ha, ih has]

lemma pySplitChar_append {c : Char} :
    ∀ {a : Str} (rest : Str), c ∉ a →
      pySplitChar c (a ++ c :: rest) = a :: pySplitChar c rest := by
  intro a
  induction a with
  | nil =>
      intro rest _
      simp [pySplitChar]
  | cons x xs ih =>
      intro rest h
      have hx : x ≠ c := fun hxc => h (hxc ▸ List.mem_cons_self x xs)
      have hxs : c ∉ xs := fun hmem => h (List.mem_cons_of_mem x hmem)
      show pySplitChar c (x :: (xs ++ c :: rest)) = (x :: xs) :: pySplitChar c rest
      simp only [pySplitChar, if_neg hx]
      rw [ih rest hxs]

/-- Splitting undoes joining for a nonempty list of separator-free
fields. -/
lemma pySplitChar_pyJoin {c : Char} :
    ∀ (parts : List Str), parts ≠ [] → (∀ p ∈ parts, c ∉ p) →
      pySplitChar c (pyJoin [c] parts) = parts := by
  intro parts
  induction parts with
  | nil => intro h _; exact absurd rfl h
  | cons p rest ih =>
      intro _ hfree
      match rest with
      | [] =>
          show pySplitChar c p = [p]
          exact pySplitChar_not_mem (hfree p (List.mem_cons_self p []))
      | q :: rest2 =>
          have hj : pyJoin [c] (p :: q :: rest2) = p ++ c :: pyJoin [c] (q :: rest2) := by
            show p ++ [c] ++ pyJoin [c] (q :: rest2) = _
            rw [List.append_assoc]
            rfl
          rw [hj, pySplitChar_append _ (hfree p (List.mem_cons_self p _))]
          rw [ih (by simp) (fun x hx => hfree x (List.mem_cons_of_mem p hx))]

/-- The nested-key loop on pieces rendered as `key=value` (with `=`-free
keys and values): it returns the last piece's key together with the values
in order. -/
lemma nestedLoop_renders :
    ∀ (ps : List (Str × Str)) (k0 : Str) (out : List Str),
      (∀ p ∈ ps, '=' ∉ p.1 ∧ '=' ∉ p.2) →
      nestedLoop (ps.map fun p => p.1 ++ '=' :: p.2) k0 out =
        .ok ((ps.map Prod.fst).getLastD k0, out ++ ps.map Prod.snd) := by
  intro ps
  induction ps with
  | nil => intro k0 out _; simp [nestedLoop]
  | cons p ps ih =>
      intro k0 out h
      obtain ⟨hk, hv⟩ := h p (List.mem_cons_self p ps)
      have hsplit : pySplitChar '=' (p.1 ++ '=' :: p.2) = [p.1, p.2] := by
        rw [pySplitChar_append _ hk, pySplitChar_not_mem hv]
      simp only [List.map_cons, nestedLoop, hsplit]
      rw [ih p.1 (out ++ [p.2]) (fun q hq => h q (List.mem_cons_of_mem p hq))]
      simp only [List.getLastD_cons, List.append_assoc, List.singleton_append]

/-- Scanning a `|`-joined token of `key=value` pieces (at least two, with
separator-free keys and values) stores the list of raw piece values under
the last piece's key name, and scanning continues with the remaining
tokens. -/
lemma parseTokens_nested (ps : List (Str × Str)) (rest : List Str)
    (ks : List (Str × PVal)) (os : List Str)
    (hlen : 2 ≤ ps.length)
    (hfree : ∀ p ∈ ps, '=' ∉ p.1 ∧ '|' ∉ p.1 ∧ '=' ∉ p.2 ∧ '|' ∉ p.2) :
    parseTokens ((pyJoin ['|'] (ps.map fun p => p.1 ++ '=' :: p.2)) :: rest) ks os =
      parseTokens rest
        (dictSet ks ((ps.map Prod.fst).getLastD []) (.vlist (ps.map Prod.snd))) os := by
  have hpieces : ∀ q ∈ ps.map (fun p => p.1 ++ '=' :: p.2), '|' ∉ q := by
    intro q hq
    obtain ⟨p, hp, rfl⟩ := List.mem_map.1 hq
    obtain ⟨_, h1, _, h2⟩ := hfree p hp
    intro hmem
    rcases List.mem_append.1 hmem with h | h
    · exact h1 h
    · rcases List.mem_cons.1 h with h | h
      · exact absurd h (by decide)
      · exact h2 h
  have hne : ps.map (fun p => p.1 ++ '=' :: p.2) ≠ [] := by
    intro h
    rw [List.map_eq_nil_iff] at h
    subst h
    simp at hlen
  have hsplit : pySplitChar '|' (pyJoin ['|'] (ps.map fun p => p.1 ++ '=' :: p.2)) =
      ps.map fun p => p.1 ++ '=' :: p.2 :=
    pySplitChar_pyJoin _ hne hpieces
  have hguard : (ps.map fun p => p.1 ++ '=' :: p.2).length > 1 := by
    rw [List.length_map]
    omega
  simp only [parseTokens, hsplit]
  rw [if_pos hguard]
  rw [nestedLoop_renders ps [] []
    (fun p hp => ⟨(hfree p hp).1, (hfree p hp).2.2.1⟩)]
  simp

/-- Scanning a pipe-free token of the form `key=value1=tail` (no `=` in
`key` or `value1`): the token is split on every `=`, and only the second
field — `value1`, the text between the first and the second `=` — is
stored (unescaped) under `key`; scanning continues with the remaining
tokens. -/
lemma parseTokens_kv (k v w : Str) (rest : List Str) (ks : List (Str × PVal))
    (os : List Str) (hk1 : '=' ∉ k) (hk2 : '|' ∉ k) (hv1 : '=' ∉ v)
    (hv2 : '|' ∉ v) (hw : '|' ∉ w) :
    parseTokens ((k ++ '=' :: (v ++ '=' :: w)) :: rest) ks os =
      parseTokens rest (dictSet ks k (.str (unescape_str v))) os := by
  have hnp : '|' ∉ (k ++ '=' :: (v ++ '=' :: w)) := by
    intro hmem
    rcases List.mem_append.1 hmem with h | h
    · exact hk2 h
    · rcases List.mem_cons.1 h with h | h
      · exact absurd h (by decide)
      · rcases List.mem_append.1 h with h | h
        · exact hv2 h
        · rcases List.mem_cons.1 h with h | h
          · exact absurd h (by decide)
          · exact hw h
  have hsplitp : pySplitChar '|' (k ++ '=' :: (v ++ '=' :: w)) =
      [k ++ '=' :: (v ++ '=' :: w)] := pySplitChar_not_mem hnp
  have hsplite : pySplitChar '=' (k ++ '=' :: (v ++ '=' :: w)) =
      k :: v :: pySplitChar '=' w := by
    rw [pySplitChar_append _ hk1, pySplitChar_append _ hv1]
  simp only [parseTokens, hsplitp, hsplite]
  rw [if_neg (by simp), if_pos (by simp)]

/-- Scanning a nonempty token with no `=`, no `|`, and not starting with
`-` is a no-op: the keys and opts are unchanged and scanning continues
with the remaining tokens. -/
lemma parseTokens_skip (c : Char) (tail : Str) (rest : List Str)
    (ks : List (Str × PVal)) (os : List Str) (hp : '|' ∉ c :: tail)
    (he : '=' ∉ c :: tail) (hd : c ≠ '-') :
    parseTokens ((c :: tail) :: rest) ks os = parseTokens rest ks os := by
  have hsplitp : pySplitChar '|' (c :: tail) = [c :: tail] :=
    pySplitChar_not_mem hp
  have hsplite : pySplitChar '=' (c :: tail) = [c :: tail] :=
    pySplitChar_not_mem he
  simp only [parseTokens, hsplitp, hsplite]
  rw [if_neg (by simp), if_neg (by simp), if_neg hd]

/-- Scanning an empty token (as produced by consecutive spaces in the
line) raises IndexError at the `key[0]` test. -/
lemma parseTokens_empty (rest : List Str) (ks : List (Str × PVal))
    (os : List Str) :
    parseTokens (([] : Str) :: rest) ks os = .error .indexError := by
  simp only [parseTokens]
  rw [if_neg (by decide), if_neg (by decide)]

lemma getLastD_append_singleton {α : Type} (a : α) (d : α) :
    ∀ (l : List α), (l ++ [a]).getLastD d = a := by
  intro l
  induction l generalizing d with
  | nil => rfl
  | cons x xs ih =>
      rw [List.cons_append, List.getLastD_cons]
      exact ih x

lemma getLastD_constant_aux (k : Str) :
    ∀ (l : List Str), ((l.map fun _ => k).getLastD k) = k := by
  intro l
  induction l with
  | nil => rfl
  | cons y ys ih =>
      rw [List.map_cons, List.getLastD_cons]
      exact ih

lemma getLastD_constant (k d x : Str) (l : List Str) :
    (((x :: l).map fun _ => k).getLastD d) = k := by
  rw [List.map_cons, List.getLastD_cons]
  exact getLastD_constant_aux k l

/-! ## Claim theorems: response-line parsing (C3, C4, C5, C9) -/

/-- Scanning a two-piece pipe-joined token whose first piece has no `=`
raises IndexError at `nvalue[1]` in the nested-key loop. -/
lemma parseTokens_pipe_no_eq (k1 k2 : Str) (rest : List Str)
    (ks : List (Str × PVal)) (os : List Str) (h1p : '|' ∉ k1)
    (h2p : '|' ∉ k2) (h1e : '=' ∉ k1) :
    parseTokens ((k1 ++ '|' :: k2) :: rest) ks os = .error .indexError := by
  have hsplit : pySplitChar '|' (k1 ++ '|' :: k2) = [k1, k2] := by
    rw [pySplitChar_append _ h1p, pySplitChar_not_mem h2p]
  have hk1 : pySplitChar '=' k1 = [k1] := pySplitChar_not_mem h1e
  simp only [parseTokens, hsplit]
  rw [if_pos (by simp)]
  simp only [nestedLoop, hk1]

/-- C3, counterexample.  `parse_command` can raise: an empty token produced
by a double space hits `key[0]` (IndexError), and a pipe-joined token with
a piece lacking `=` hits `nvalue[1]` (IndexError) — both inputs the claim
says are skipped as no-ops. -/
theorem parse_command_raises_on_malformed :
    parse_command "a  b".toList = .error .indexError ∧
    parse_command "cmd a|b".toList = .error .indexError := by
  refine ⟨by decide, by decide⟩

/-- C3, amended.  A scanned token that is nonempty, matches no rule (no
`=`, no `|`, not starting with `-`) is skipped as a no-op and parsing of
the remaining tokens continues; but `parse_command` is not exception-free:
an empty token (as produced by repeated spaces) raises IndexError at
`key[0]`, and a pipe-joined token whose piece lacks `=` raises IndexError
at `nvalue[1]`. -/
theorem parse_command_skip_or_raise (c : Char) (tail k1 k2 : Str)
    (rest : List Str) (ks : List (Str × PVal)) (os : List Str)
    (hp : '|' ∉ c :: tail) (he : '=' ∉ c :: tail) (hd : c ≠ '-')
    (h1p : '|' ∉ k1) (h2p : '|' ∉ k2) (h1e : '=' ∉ k1) :
    parseTokens ((c :: tail) :: rest) ks os = parseTokens rest ks os ∧
    parseTokens (([] : Str) :: rest) ks os = .error .indexError ∧
    parseTokens ((k1 ++ '|' :: k2) :: rest) ks os = .error .indexError :=
  ⟨parseTokens_skip c tail rest ks os hp he hd, parseTokens_empty rest ks os,
   parseTokens_pipe_no_eq k1 k2 rest ks os h1p h2p h1e⟩

/-- C3, witness for the amended theorem: the no-rule token `x!` is skipped
and scanning continues with the remaining token, while an empty token or
the pipe-joined token `a|b` in the same position raises. -/
theorem parse_command_skip_or_raise_witness :
    parseTokens (('x' :: "!".toList) :: ["a=b".toList]) [] [] =
      parseTokens ["a=b".toList] [] [] ∧
    parseTokens (([] : Str) :: ["a=b".toList]) [] [] = .error .indexError ∧
    parseTokens (("a".toList ++ '|' :: "b".toList) :: ["a=b".toList]) [] [] =
      .error .indexError :=
  parse_command_skip_or_raise 'x' "!".toList "a".toList "b".toList
    ["a=b".toList] [] [] (by decide) (by decide) (by decide) (by decide)
    (by decide) (by decide)

/-- C4, counterexample.  For the token `msg=a=b`, `parse_command` stores
`msg -> "a"` (the field between the first and second `=`), not the claimed
`msg -> "a=b"` (everything after the first `=`): `key.split('=')` splits on
every `=` and only `nvalue[1]` is kept. -/
theorem parse_command_msg_second_field :
    parse_command "cmd msg=a=b".toList =
      .ok ⟨some "cmd".toList, [("msg".toList, .str "a".toList)], []⟩ ∧
    PVal.str "a".toList ≠ PVal.str (unescape_str "a=b".toList) := by
  refine ⟨by decide, by decide⟩

/-- C4, amended.  For a scanned token containing `=` and no `|`, of the
form `key=value1=tail` with `=`-free `key` and `value1`: the token is
split on every `=` and the stored value is the unescaped second field
`value1` (the text between the first and second `=`), discarding the
rest. -/
theorem parse_command_second_field (k v w : Str) (rest : List Str)
    (ks : List (Str × PVal)) (os : List Str) (hk1 : '=' ∉ k)
    (hk2 : '|' ∉ k) (hv1 : '=' ∉ v) (hv2 : '|' ∉ v) (hw : '|' ∉ w) :
    parseTokens ((k ++ '=' :: (v ++ '=' :: w)) :: rest) ks os =
      parseTokens rest (dictSet ks k (.str (unescape_str v))) os :=
  parseTokens_kv k v w rest ks os hk1 hk2 hv1 hv2 hw

/-- C4, witness for the amended theorem at the shape of the token
`msg=a=b`. -/
theorem parse_command_second_field_witness :
    parseTokens (("msg".toList ++ '=' :: ("a".toList ++ '=' :: "b".toList)) :: ([] : List Str)) [] [] =
      parseTokens [] (dictSet [] "msg".toList (.str (unescape_str "a".toList))) [] :=
  parse_command_second_field "msg".toList "a".toList "b".toList [] [] []
    (by decide) (by decide) (by decide) (by decide) (by decide)

/-- C5, counterexample.  In the pipe-joined token `k=a\sb|k=c` the piece
values are stored raw — `a\sb` is not unescaped to `a b` as the claim
requires: line 143 of the source appends `nvalue[1]` without
`_unescape_str`. -/
theorem parse_command_nested_not_unescaped :
    parse_command "x k=a\\sb|k=c".toList =
      .ok ⟨some "x".toList,
           [("k".toList, .vlist ["a\\sb".toList, "c".toList])], []⟩ ∧
    unescape_str "a\\sb".toList = "a b".toList ∧
    PVal.vlist ["a\\sb".toList, "c".toList] ≠
      PVal.vlist [unescape_str "a\\sb".toList, unescape_str "c".toList] := by
  refine ⟨by decide, by decide, by decide⟩

/-- C5, amended.  For a pipe-joined token whose `key=value` pieces (at
least two, with separator-free keys and values) share one key name, the
piece values are collected raw — without unescaping — in order into a
sequence stored under that shared key name. -/
theorem parse_command_nested_raw_values (k v1 v2 : Str) (vr : List Str)
    (rest : List Str) (ks : List (Str × PVal)) (os : List Str)
    (hk1 : '=' ∉ k) (hk2 : '|' ∉ k)
    (hv : ∀ v ∈ v1 :: v2 :: vr, '=' ∉ v ∧ '|' ∉ v) :
    parseTokens
        ((pyJoin ['|'] ((v1 :: v2 :: vr).map fun v => k ++ '=' :: v)) :: rest) ks os =
      parseTokens rest (dictSet ks k (.vlist (v1 :: v2 :: vr))) os := by
  have h := parseTokens_nested ((v1 :: v2 :: vr).map fun v => (k, v)) rest ks os
    (by simp) ?_
  · have hmap : ((v1 :: v2 :: vr).map fun v => (k, v)).map
        (fun p => p.1 ++ '=' :: p.2) = (v1 :: v2 :: vr).map fun v => k ++ '=' :: v := by
      rw [List.map_map]; rfl
    have hfst : (((v1 :: v2 :: vr).map fun v => (k, v)).map Prod.fst).getLastD [] = k := by
      rw [List.map_map]
      exact getLastD_constant k [] v1 (v2 :: vr)
    have hsnd : ((v1 :: v2 :: vr).map fun v => (k, v)).map Prod.snd = v1 :: v2 :: vr := by
      rw [List.map_map]
      exact List.map_id _
    rw [hmap, hfst, hsnd] at h
    exact h
  · intro p hp
    obtain ⟨v, hv2', rfl⟩ := List.mem_map.1 hp
    exact ⟨hk1, hk2, (hv v hv2').1, (hv v hv2').2⟩

/-- C5, witness for the amended theorem at the token `k=1|k=2`. -/
theorem parse_command_nested_raw_values_witness :
    parseTokens
        ((pyJoin ['|'] (("1".toList :: "2".toList :: []).map
          fun v => "k".toList ++ '=' :: v)) :: ([] : List Str)) [] [] =
      parseTokens []
        (dictSet [] "k".toList (.vlist ("1".toList :: "2".toList :: []))) [] :=
  parse_command_nested_raw_values "k".toList "1".toList "2".toList [] [] [] []
    (by decide) (by decide) (by decide)

set_option linter.unusedVariables false in
/-- C9.  For a pipe-joined token whose `key=value` pieces carry differing
key names (some piece's key differs from the last piece's), the ordered
sequence of all piece values is stored under the key name of the last
piece, silently discarding the earlier pieces' key names. -/
theorem parse_command_nested_last_key (p0 : Str × Str)
    (ps1 : List (Str × Str)) (kl vl : Str) (rest : List Str)
    (ks : List (Str × PVal)) (os : List Str)
    (hfree : ∀ p ∈ p0 :: (ps1 ++ [(kl, vl)]),
      '=' ∉ p.1 ∧ '|' ∉ p.1 ∧ '=' ∉ p.2 ∧ '|' ∉ p.2)
    (hdiff : ∃ p ∈ p0 :: (ps1 ++ [(kl, vl)]), p.1 ≠ kl) :
    parseTokens
        ((pyJoin ['|'] ((p0 :: (ps1 ++ [(kl, vl)])).map
          fun p => p.1 ++ '=' :: p.2)) :: rest) ks os =
      parseTokens rest
        (dictSet ks kl (.vlist ((p0 :: (ps1 ++ [(kl, vl)])).map Prod.snd))) os := by
  clear hdiff
  have h := parseTokens_nested (p0 :: (ps1 ++ [(kl, vl)])) rest ks os (by simp) hfree
  have hfst : ((p0 :: (ps1 ++ [(kl, vl)])).map Prod.fst).getLastD [] = kl := by
    rw [List.map_cons, List.getLastD_cons, List.map_append]
    exact getLastD_append_singleton kl p0.1 (ps1.map Prod.fst)
  rw [hfst] at h
  exact h

/-- C9, witness at the token `a=1|b=2`: the values are stored under `b`,
the last piece's key. -/
theorem parse_command_nested_last_key_witness :
    parseTokens
        ((pyJoin ['|'] ((("a".toList, "1".toList) :: (([] : List (Str × Str)) ++
          [("b".toList, "2".toList)])).map
          fun p => p.1 ++ '=' :: p.2)) :: ([] : List Str)) [] [] =
      parseTokens []
        (dictSet [] "b".toList
          (.vlist ((("a".toList, "1".toList) :: (([] : List (Str × Str)) ++
            [("b".toList, "2".toList)])).map Prod.snd))) [] :=
  parse_command_nested_last_key ("a".toList, "1".toList) [] "b".toList "2".toList
    [] [] [] (by decide)
    ⟨("a".toList, "1".toList), by decide, by decide⟩

/-! ## Claim theorems: the request/response cycle (C2) -/

/-- The read loop of `send_command` consumes a prefix of data lines (lines
that parse without a command), appending their keys dicts to the
accumulator in receipt order. -/
lemma recvLoop_data {datalines : List Str} {maps : List (List (Str × PVal))}
    (hdata : List.Forall₂
      (fun l m => ∃ o, parse_command l = .ok ⟨none, m, o⟩) datalines maps) :
    ∀ (rest : List Str) (acc : List (List (Str × PVal))),
      recvLoop (datalines ++ rest) acc = recvLoop rest (acc ++ maps) := by
  induction hdata with
  | nil => intro rest acc; simp
  | @cons a m datalines2 maps2 hpm hrest ih =>
      intro rest acc
      obtain ⟨o, hp⟩ := hpm
      calc recvLoop ((a :: datalines2) ++ rest) acc
          = recvLoop (datalines2 ++ rest) (acc ++ [m]) := by
            simp only [List.cons_append, recvLoop, hp]
            rfl
        _ = recvLoop rest ((acc ++ [m]) ++ maps2) := ih rest (acc ++ [m])
        _ = recvLoop rest (acc ++ m :: maps2) := by
            rw [List.append_assoc]
            rfl

/-- C2.  A request cycle whose incoming lines are data lines (parsing with
no command) followed by a status line with command `error` carrying a
string-valued `id` key: if `id` is `0` and at least one data line was
read, `send_command` returns the data lines' keys dicts in receipt order;
if `id` is `0` with no data lines it returns the id string; and if `id` is
nonzero it returns the id string — in all three cases an ordinary return,
never an exception. -/
theorem send_command_status_resolution (lines datalines : List Str)
    (statusline : Str) (maps : List (List (Str × PVal)))
    (pl : ParsedLine) (idv : Str)
    (hlines : lines = datalines ++ [statusline])
    (hdata : List.Forall₂
      (fun l m => ∃ o, parse_command l = .ok ⟨none, m, o⟩) datalines maps)
    (hst : parse_command statusline = .ok pl)
    (hcmd : pl.command = some "error".toList)
    (hid : dictGet pl.keys "id".toList = some (.str idv)) :
    send_command lines =
      if maps ≠ [] ∧ idv = ['0'] then .ok (.payload maps)
      else .ok (.status (.str idv)) := by
  subst hlines
  show recvLoop (datalines ++ [statusline]) [] = _
  rw [recvLoop_data hdata [statusline] []]
  simp only [List.nil_append]
  simp only [recvLoop, hst, hcmd]
  simp only [if_true, hid, PVal.str.injEq]

/-- C2, witness: one data line `a=1` then the status line `error id=0`
resolve to the singleton payload. -/
theorem send_command_status_resolution_witness :
    send_command ["a=1".toList, "error id=0".toList] =
      (if ([[("a".toList, PVal.str "1".toList)]] :
            List (List (Str × PVal))) ≠ [] ∧ (['0'] : Str) = ['0']
       then .ok (.payload [[("a".toList, PVal.str "1".toList)]])
       else .ok (.status (.str ['0']))) :=
  send_command_status_resolution ["a=1".toList, "error id=0".toList]
    ["a=1".toList] "error id=0".toList [[("a".toList, PVal.str "1".toList)]]
    ⟨some "error".toList, [("id".toList, PVal.str ['0'])], []⟩ ['0']
    rfl
    (List.Forall₂.cons ⟨[], by decide⟩ List.Forall₂.nil)
    (by decide) (by decide) (by decide)

/-! ## Claim theorems: command construction (C6) -/

lemma foldl_append_map {α : Type} (g : α → Str) :
    ∀ (l : List α) (init : List Str),
      l.foldl (fun acc x => acc ++ [g x]) init = init ++ l.map g := by
  intro l
  induction l with
  | nil => intro init; simp
  | cons x xs ih =>
      intro init
      rw [List.foldl_cons, ih, List.map_cons, List.append_assoc]
      rfl

/-- C6.  `construct_command` emits the command name first, then one token
per key in mapping order (a list value as `key=escape(elem)` pieces joined
with `|`, the empty list yielding the empty token, a scalar as
`key=escape(value)`), then `-opt` per option, all joined by single spaces —
it agrees with the specification-side rendering `constructCommandSpec` on
every input; in particular the `login` example produces exactly the claimed
line, and an empty-list key yields the empty token. -/
theorem construct_command_matches_spec :
    (∀ (name : Str) (keys : List (Str × TSVal)) (opts : List Str),
      construct_command name keys opts = constructCommandSpec name keys opts) ∧
    construct_command "login".toList
      [("client_login_name".toList, .scalar (.s "a".toList)),
       ("client_login_password".toList, .scalar (.s "b".toList))] [] =
      "login client_login_name=a client_login_password=b".toList ∧
    construct_command "c".toList [("k".toList, .list [])] [] = "c ".toList := by
  refine ⟨?_, by decide, by decide⟩
  intro name keys opts
  simp only [construct_command, constructCommandSpec]
  rw [foldl_append_map, foldl_append_map]
  congr 2
  refine congrArg (fun t => [name] ++ t) (List.map_congr_left ?_)
  intro kv _
  rcases kv with ⟨k1, v⟩
  cases v with
  | scalar x => rfl
  | list l =>
      show pyJoin ['|'] (l.foldl (fun nacc nest =>
        nacc ++ [k1 ++ '=' :: escapeScalar nest]) []) = _
      rw [foldl_append_map (fun nest => k1 ++ '=' :: escapeScalar nest) l []]
      rfl

/-! ## Claim theorems: session operations (C7, C8) -/

/-- C7.  `send` with the connected flag down is a complete no-op — nothing
is written and the whole session state (flag, counters, output transcript)
is unchanged — and with the flag up it writes exactly the payload; in
either case the flag and the counters are untouched. -/
theorem send_connected_guard :
    ∀ (st : Session) (p : Str),
      ((send st p).connected = st.connected ∧
       (send st p).bytesin = st.bytesin ∧
       (send st p).bytesout = st.bytesout) ∧
      (st.connected = false → send st p = st) ∧
      (st.connected = true → (send st p).outbuf = st.outbuf ++ [p]) := by
  intro st p
  unfold send
  by_cases h : st.connected = true
  · rw [if_pos h]
    refine ⟨⟨rfl, rfl, rfl⟩, fun hf => absurd h (by rw [hf]; simp), fun _ => rfl⟩
  · rw [if_neg h]
    exact ⟨⟨rfl, rfl, rfl⟩, fun _ => rfl, fun ht => absurd ht h⟩

/-- C7, witness: a disconnected session is unchanged by `send`; a
connected one gets exactly the payload appended to its transcript. -/
theorem send_connected_guard_witness :
    send ⟨false, 0, 0, []⟩ "x".toList = ⟨false, 0, 0, []⟩ ∧
    (send ⟨true, 0, 0, []⟩ "x".toList).outbuf = [] ++ ["x".toList] :=
  ⟨(send_connected_guard ⟨false, 0, 0, []⟩ "x".toList).2.1 rfl,
   (send_connected_guard ⟨true, 0, 0, []⟩ "x".toList).2.2 rfl⟩

/-- C8, counterexample.  When the TCP connect step fails, `connect`
re-raises the underlying socket exception (the
`raise ConnectionError(ip, port)` on line 41 of the source is commented
out), so the surfaced error is not the repository's `ConnectionError` and
carries no host/port; only the original exception's own message. -/
theorem connect_failure_not_connection_error :
    connect ⟨false, 0, 0, []⟩ "h".toList 1 false "econnrefused".toList
        "x".toList =
      (⟨false, 0, 0, []⟩, .error (.socketError "econnrefused".toList)) ∧
    isConnectionError (.socketError "econnrefused".toList) = false := by
  refine ⟨by decide, by decide⟩

/-- C8, amended.  When the initial TCP connect fails, `connect` re-raises
the original socket exception unchanged (never the repository's
`ConnectionError(host, port)`), and the session — in particular its
connected flag — is left exactly as it was (false for a fresh session). -/
theorem connect_failure_reraises (st : Session) (ip : Str) (port : Nat)
    (msg banner : Str) :
    connect st ip port false msg banner = (st, .error (.socketError msg)) ∧
    (connect st ip port false msg banner).1.connected = st.connected ∧
    isConnectionError (.socketError msg) = false :=
  ⟨rfl, rfl, rfl⟩
